import Mathlib

/-!
Shallow embedding of `Lib/fontTools/pens/ttGlyphPen.py`: the shared
`TTGlyphBasePen` glyph-assembly core and its two adapters, the segment
pen `TTGlyphPen` and the point pen `TTGlyphPointPen`.

Coordinates and transform entries are modelled as rationals.  Every pen
operation that can raise in the source (assertion failures,
`NotImplementedError`, list index errors) is modelled as returning
`none`; this is faithful because in the source every raise happens
before any mutation of the accumulators, so a raising call leaves the
pen state untouched.
-/

abbrev Point : Type := ℚ × ℚ

/-- The six-element affine transformation `(a, b, c, d, dx, dy)` passed to
`addComponent`. -/
structure Transform where
  a : ℚ
  b : ℚ
  c : ℚ
  d : ℚ
  dx : ℚ
  dy : ℚ
deriving DecidableEq, Repr

/-- Modelled from the spec: `otRound` of `fontTools.misc.roundTools` is not
under `src/`; the spec (§4.7, §4.1) asks for a deterministic round-to-nearest
integer rounding, here floor of `v + 1/2`. -/
def otRound (v : ℚ) : ℤ := ⌊v + 1 / 2⌋

/-- The largest value representable in F2Dot14, `0x7FFF / (1 << 14)`
= 1.99993896484375. -/
def MAX_F2DOT14 : ℚ := 32767 / 16384

/-- Modelled from the spec (§4.1): `floatToFixedToFloat(v, 14)` of
`fontTools.misc.fixedTools` is not under `src/`; the spec asks to quantize to
the 2.14 fixed-point grid by rounding to the nearest representable value and
reading it back as a real number. -/
def floatToFixedToFloat (v : ℚ) : ℚ := (otRound (v * 16384) : ℚ) / 16384

/-- The quadruple of quantized linear-transform entries, as produced by
`tuple(floatToFixedToFloat(v, 14) for v in transformation[:4])`. -/
def quantize4 (t : Transform) : ℚ × ℚ × ℚ × ℚ :=
  (floatToFixedToFloat t.a, floatToFixedToFloat t.b,
   floatToFixedToFloat t.c, floatToFixedToFloat t.d)

def quadList (q : ℚ × ℚ × ℚ × ℚ) : List ℚ := [q.1, q.2.1, q.2.2.1, q.2.2.2]

/-- `MAX_F2DOT14 < s <= 2` : the "essentially +2.0 but not representable"
test used in `_buildComponents`. -/
def almostTwo (v : ℚ) : Bool := decide (MAX_F2DOT14 < v) && decide (v ≤ 2)

def hasAlmostTwo (q : ℚ × ℚ × ℚ × ℚ) : Bool := (quadList q).any almostTwo

/-- `MAX_F2DOT14 if MAX_F2DOT14 < s <= 2 else s` mapped over the quantized
quadruple. -/
def clampQuad (q : ℚ × ℚ × ℚ × ℚ) : ℚ × ℚ × ℚ × ℚ :=
  (if almostTwo q.1 then MAX_F2DOT14 else q.1,
   if almostTwo q.2.1 then MAX_F2DOT14 else q.2.1,
   if almostTwo q.2.2.1 then MAX_F2DOT14 else q.2.2.1,
   if almostTwo q.2.2.2 then MAX_F2DOT14 else q.2.2.2)

/-- One record of the output component list, mirroring the fields of
`_g_l_y_f.GlyphComponent` that `_buildComponents` sets: name, integer
offset, optional 2x2 transform, flags. -/
structure GlyphComponent where
  glyphName : String
  x : ℤ
  y : ℤ
  transform : Option (ℚ × ℚ × ℚ × ℚ)
  flags : Nat
deriving DecidableEq, Repr

/-- The output glyph record, mirroring the fields of `_g_l_y_f.Glyph` that
`_glyph` sets.  `hasProgram` models the attachment of the trivial empty
instruction program to a simple glyph. -/
structure Glyph where
  coordinates : List (ℤ × ℤ)
  endPtsOfContours : List Nat
  flags : List Nat
  components : List GlyphComponent
  numberOfContours : ℤ
  hasProgram : Bool
deriving DecidableEq, Repr

/-- The accumulator state set up by `TTGlyphBasePen.init`. -/
structure PenState where
  points : List Point
  endPts : List Nat
  types : List Nat
  components : List (String × Transform)
  currentPath : Option (List Point)
deriving DecidableEq, Repr

/-- The state `TTGlyphBasePen.init` resets to: all accumulators empty. -/
def initState : PenState :=
  { points := [], endPts := [], types := [], components := [], currentPath := none }

/-- Modelled from the spec (§4.6, §6): the external glyph set and the
transform pens (`TransformPen` / `TransformPointPen`) are not under `src/`.
`contains` answers membership; `outline name t` is the referenced glyph's
outline, pre-transformed by `t`, as the list of contours (each a non-empty
list of (point, on/off-curve flag) pairs) that drawing it through the
transform pen appends to the accumulators.  Decomposition appends outline
points and contour boundaries only; it never adds component records. -/
structure GlyphSet where
  contains : String → Bool
  outline : String → Transform → List (List (Point × Nat))

/-- Append one decomposed contour to the accumulators: its points and flags
go to the flat lists and its last index becomes a new contour boundary.
Empty contours append nothing (the pen records no zero-point contour). -/
def appendContour (s : PenState) (c : List (Point × Nat)) : PenState :=
  if c.isEmpty then s
  else
    { s with
      points := s.points ++ c.map Prod.fst
      types := s.types ++ c.map Prod.snd
      endPts := s.endPts ++ [s.points.length + c.length - 1] }

/-- `_decompose`: draw the referenced glyph through a transform pen into
this pen's own accumulators. -/
def decompose (gs : GlyphSet) (name : String) (t : Transform) (s : PenState) : PenState :=
  (gs.outline name t).foldl appendContour s

/-- `any(s > 2 or s < -2 for ... in self.components for s in transformation[:4])`:
the glyph-wide overflow test over the raw (pre-quantization) transform
entries of all pending components. -/
def rawOverflowing (comps : List (String × Transform)) : Bool :=
  comps.any fun p => [p.2.a, p.2.b, p.2.c, p.2.d].any fun v => decide (2 < v) || decide (v < -2)

/-- The component record built by the emit branch of `_buildComponents`:
rounded offset, quantized transform, identity omission, near-+2 clamping. -/
def mkEmitComponent (handleOverflowingTransforms : Bool) (componentFlags : Nat)
    (name : String) (t : Transform) : GlyphComponent :=
  let q := quantize4 t
  { glyphName := name
    x := otRound t.dx
    y := otRound t.dy
    transform :=
      if q = (1, 0, 0, 1) then none
      else if handleOverflowingTransforms && hasAlmostTwo q then some (clampQuad q)
      else some q
    flags := componentFlags }

/-- The body of the `for glyphName, transformation in self.components` loop
of `_buildComponents`, acting on the pair (pen state, components built so
far). -/
def buildComponentsStep (gs : GlyphSet) (handleOverflowingTransforms overflowing : Bool)
    (componentFlags : Nat) (acc : PenState × List GlyphComponent) (p : String × Transform) :
    PenState × List GlyphComponent :=
  if !gs.contains p.1 then acc
  else if !acc.1.points.isEmpty || (handleOverflowingTransforms && overflowing) then
    (decompose gs p.1 p.2 acc.1, acc.2)
  else
    (acc.1, acc.2 ++ [mkEmitComponent handleOverflowingTransforms componentFlags p.1 p.2])

/-- `TTGlyphBasePen._buildComponents`, returning the pen state after any
decompositions together with the built component list. -/
def buildComponents (gs : GlyphSet) (handleOverflowingTransforms : Bool)
    (componentFlags : Nat) (s : PenState) : PenState × List GlyphComponent :=
  let overflowing := rawOverflowing s.components
  s.components.foldl
    (buildComponentsStep gs handleOverflowingTransforms overflowing componentFlags) (s, [])

/-- `TTGlyphBasePen._glyph`: build components, freeze coordinates to
integers, reset the accumulators, and mark the glyph composite exactly when
the built component list is non-empty. -/
def penGlyph (gs : GlyphSet) (handleOverflowingTransforms : Bool) (componentFlags : Nat)
    (s : PenState) : Glyph × PenState :=
  let sc := buildComponents gs handleOverflowingTransforms componentFlags s
  let glyph : Glyph :=
    if sc.2.isEmpty then
      { coordinates := sc.1.points.map fun p => (otRound p.1, otRound p.2)
        endPtsOfContours := sc.1.endPts
        flags := sc.1.types
        components := []
        numberOfContours := (sc.1.endPts.length : ℤ)
        hasProgram := true }
    else
      { coordinates := sc.1.points.map fun p => (otRound p.1, otRound p.2)
        endPtsOfContours := sc.1.endPts
        flags := sc.1.types
        components := sc.2
        numberOfContours := -1
        hasProgram := false }
  (glyph, initState)

/-! ## Segment adapter (`TTGlyphPen`) -/

/-- `TTGlyphPen._addPoint`: append a point and its on/off-curve flag. -/
def addPointRaw (s : PenState) (pt : Point) (onCurve : Nat) : PenState :=
  { s with points := s.points ++ [pt], types := s.types ++ [onCurve] }

/-- `TTGlyphPen._popPoint`: drop the last point and its flag. -/
def popPoint (s : PenState) : PenState :=
  { s with points := s.points.dropLast, types := s.types.dropLast }

/-- `TTGlyphPen._isClosed`: no points at all, or the most recent contour
boundary is the last index of the point list. -/
def isClosed (s : PenState) : Bool :=
  s.points.isEmpty ||
    (!s.endPts.isEmpty && decide (s.endPts.getLast? = some (s.points.length - 1)))

/-- `TTGlyphPen.moveTo`: asserts the current contour is closed. -/
def moveTo (pt : Point) (s : PenState) : Option PenState :=
  if isClosed s then some (addPointRaw s pt 1) else none

/-- `TTGlyphPen.lineTo`. -/
def lineTo (pt : Point) (s : PenState) : Option PenState :=
  some (addPointRaw s pt 1)

/-- `TTGlyphPen.curveTo`: always raises `NotImplementedError`. -/
def curveTo (_points : List Point) (_s : PenState) : Option PenState :=
  none

/-- `TTGlyphPen.qCurveTo(*args)` where the argument list is
`offCurves ++ [last]` — non-empty by encoding, matching the pen protocol in
which only the final argument may be the literal `None`.  All arguments but
the last are appended off-curve; the last is appended on-curve unless it is
`None`. -/
def qCurveTo (offCurves : List Point) (last : Option Point) (s : PenState) : Option PenState :=
  let s1 := offCurves.foldl (fun t p => addPointRaw t p 0) s
  match last with
  | some p => some (addPointRaw s1 p 1)
  | none => some s1

/-- `TTGlyphPen.closePath`: anchor collapse, duplicate-closing-point
trimming, then record the contour boundary.  Raises (an index error) when
called with no point in the current contour region. -/
def closePath (s : PenState) : Option PenState :=
  if s.points.isEmpty then none
  else if s.points.length - 1 = 0 || (match s.endPts.getLast? with
      | some e => decide (s.points.length - 1 = e + 1)
      | none => false) then
    some (popPoint s)
  else
    match s.points.get? (match s.endPts.getLast? with
        | some e => e + 1
        | none => 0),
      s.points.get? (s.points.length - 1) with
    | some pStart, some pEnd =>
      if pStart = pEnd then
        some { popPoint s with endPts := s.endPts ++ [s.points.length - 1 - 1] }
      else
        some { s with endPts := s.endPts ++ [s.points.length - 1] }
    | _, _ => none

/-- `TTGlyphPen.endPath`: TrueType contours are always closed. -/
def segEndPath (s : PenState) : Option PenState :=
  closePath s

/-- `TTGlyphPen.glyph`: asserts the last contour was closed, then hands off
to `_glyph`. -/
def segGlyph (gs : GlyphSet) (handleOverflowingTransforms : Bool) (componentFlags : Nat)
    (s : PenState) : Option (Glyph × PenState) :=
  if isClosed s then some (penGlyph gs handleOverflowingTransforms componentFlags s) else none

/-! ## Point adapter (`TTGlyphPointPen`) -/

/-- `TTGlyphPointPen.beginPath`: asserts no sub path is open. -/
def beginPath (s : PenState) : Option PenState :=
  match s.currentPath with
  | none => some { s with currentPath := some [] }
  | some _ => none

/-- `TTGlyphPointPen.endPath`: asserts a sub path is open; a non-empty sub
path records its end index as a contour boundary. -/
def pointEndPath (s : PenState) : Option PenState :=
  match s.currentPath with
  | none => none
  | some path =>
    if path.isEmpty then some { s with currentPath := none }
    else some { s with endPts := s.endPts ++ [s.points.length - 1], currentPath := none }

/-- `TTGlyphPointPen.addPoint`: asserts a sub path is open; `none` segment
type is off-curve, `"qcurve"`/`"line"` are on-curve, anything else (cubic
roles included) raises `NotImplementedError` before any mutation. -/
def addPoint (pt : Point) (segmentType : Option String) (s : PenState) : Option PenState :=
  match s.currentPath with
  | none => none
  | some path =>
    match segmentType with
    | none =>
      some { s with types := s.types ++ [0], currentPath := some (path ++ [pt]),
                    points := s.points ++ [pt] }
    | some ty =>
      if ty = "qcurve" ∨ ty = "line" then
        some { s with types := s.types ++ [1], currentPath := some (path ++ [pt]),
                      points := s.points ++ [pt] }
      else none

/-- `TTGlyphPointPen.glyph`: asserts no sub path is left open, then hands
off to `_glyph`. -/
def pointGlyph (gs : GlyphSet) (handleOverflowingTransforms : Bool) (componentFlags : Nat)
    (s : PenState) : Option (Glyph × PenState) :=
  match s.currentPath with
  | none => some (penGlyph gs handleOverflowingTransforms componentFlags s)
  | some _ => none

/-- `TTGlyphBasePen.addComponent`: record the pending component. -/
def addComponent (name : String) (t : Transform) (s : PenState) : Option PenState :=
  some { s with components := s.components ++ [(name, t)] }

/-! ## Unified operation type -/

/-- One call of either adapter's public protocol. -/
inductive PenOp where
  | moveTo (p : Point)
  | lineTo (p : Point)
  | curveTo (args : List Point)
  | qCurveTo (offCurves : List Point) (last : Option Point)
  | closePath
  | segEndPath
  | beginPath
  | addPoint (p : Point) (segmentType : Option String)
  | pointEndPath
  | addComponent (name : String) (t : Transform)
  | segGlyph (gs : GlyphSet) (handleOverflowingTransforms : Bool) (componentFlags : Nat)
  | pointGlyph (gs : GlyphSet) (handleOverflowingTransforms : Bool) (componentFlags : Nat)

/-- Apply one operation to the pen state; for the finalizing operations the
produced glyph is dropped and the post-finalization state kept. -/
def applyOp (op : PenOp) (s : PenState) : Option PenState :=
  match op with
  | .moveTo p => moveTo p s
  | .lineTo p => lineTo p s
  | .curveTo args => curveTo args s
  | .qCurveTo offCurves last => qCurveTo offCurves last s
  | .closePath => closePath s
  | .segEndPath => segEndPath s
  | .beginPath => beginPath s
  | .addPoint p ty => addPoint p ty s
  | .pointEndPath => pointEndPath s
  | .addComponent name t => addComponent name t s
  | .segGlyph gs hov flags => (segGlyph gs hov flags s).map Prod.snd
  | .pointGlyph gs hov flags => (pointGlyph gs hov flags s).map Prod.snd

/-- Run a sequence of operations from a starting state, failing as soon as
one operation fails. -/
def runOps : List PenOp → PenState → Option PenState
  | [], s => some s
  | op :: l, s =>
    match applyOp op s with
    | some t => runOps l t
    | none => none

/-! ## Helper lemmas -/

theorem appendContour_points (s : PenState) (c : List (Point × Nat)) :
    (appendContour s c).points = s.points ++ if c.isEmpty then [] else c.map Prod.fst := by
  unfold appendContour
  split <;> simp

theorem appendContour_components (s : PenState) (c : List (Point × Nat)) :
    (appendContour s c).components = s.components := by
  unfold appendContour
  split <;> rfl

theorem appendContour_len (s : PenState) (c : List (Point × Nat))
    (h : s.points.length = s.types.length) :
    (appendContour s c).points.length = (appendContour s c).types.length := by
  unfold appendContour
  split
  · exact h
  · simp [h]

theorem foldl_appendContour_points (cs : List (List (Point × Nat))) :
    ∀ s : PenState, ∃ l, (cs.foldl appendContour s).points = s.points ++ l := by
  induction cs with
  | nil => exact fun s => ⟨[], by simp⟩
  | cons c cs ih =>
    intro s
    obtain ⟨l, hl⟩ := ih (appendContour s c)
    rw [List.foldl_cons]
    exact ⟨_, by rw [hl, appendContour_points, List.append_assoc]⟩

theorem decompose_points_ne_nil (gs : GlyphSet) (name : String) (t : Transform)
    (s : PenState) (h : s.points ≠ []) : (decompose gs name t s).points ≠ [] := by
  obtain ⟨l, hl⟩ := foldl_appendContour_points (gs.outline name t) s
  rw [decompose, hl]
  simp [h]

theorem decompose_components (gs : GlyphSet) (name : String) (t : Transform) (s : PenState) :
    (decompose gs name t s).components = s.components := by
  unfold decompose
  generalize gs.outline name t = cs
  induction cs generalizing s with
  | nil => rfl
  | cons c cs ih => rw [List.foldl_cons, ih, appendContour_components]

theorem decompose_len (gs : GlyphSet) (name : String) (t : Transform) (s : PenState)
    (h : s.points.length = s.types.length) :
    (decompose gs name t s).points.length = (decompose gs name t s).types.length := by
  unfold decompose
  generalize gs.outline name t = cs
  induction cs generalizing s with
  | nil => exact h
  | cons c cs ih => exact ih _ (appendContour_len s c h)

/-- When every loop iteration takes the decompose branch, `_buildComponents`
builds no component and just decomposes the known pending components in
order. -/
theorem buildLoop_decomposeAll (gs : GlyphSet) (hov ovf : Bool) (flags : Nat)
    (P : PenState → Prop)
    (hcond : ∀ t, P t → (!t.points.isEmpty || (hov && ovf)) = true)
    (hpres : ∀ t (n : String) (tr : Transform), P t → P (decompose gs n tr t)) :
    ∀ (l : List (String × Transform)) (s : PenState) (acc : List GlyphComponent), P s →
      l.foldl (buildComponentsStep gs hov ovf flags) (s, acc) =
        ((l.filter fun p => gs.contains p.1).foldl (fun t p => decompose gs p.1 p.2 t) s, acc) := by
  intro l
  induction l with
  | nil => intro s acc _; rfl
  | cons p l ih =>
    intro s acc hP
    rw [List.foldl_cons]
    by_cases hc : gs.contains p.1
    · have hstep : buildComponentsStep gs hov ovf flags (s, acc) p = (decompose gs p.1 p.2 s, acc) := by
        unfold buildComponentsStep
        rw [if_neg (by simp [hc]), if_pos (hcond s hP)]
      rw [hstep, List.filter_cons_of_pos (by simpa using hc), List.foldl_cons]
      exact ih _ acc (hpres s p.1 p.2 hP)
    · have hstep : buildComponentsStep gs hov ovf flags (s, acc) p = (s, acc) := by
        unfold buildComponentsStep
        rw [if_pos (by simp [hc])]
      rw [hstep, List.filter_cons_of_neg (by simpa using hc)]
      exact ih s acc hP

/-- Every component record produced by the `_buildComponents` loop comes
from the emit branch applied to one of the pending components. -/
theorem mem_buildLoop (gs : GlyphSet) (hov ovf : Bool) (flags : Nat) :
    ∀ (l : List (String × Transform)) (s : PenState) (acc : List GlyphComponent)
      (c : GlyphComponent),
      c ∈ (l.foldl (buildComponentsStep gs hov ovf flags) (s, acc)).2 →
      c ∈ acc ∨ ∃ p ∈ l, gs.contains p.1 = true ∧ c = mkEmitComponent hov flags p.1 p.2 := by
  intro l
  induction l with
  | nil => intro s acc c hc; exact Or.inl hc
  | cons p l ih =>
    intro s acc c hc
    rw [List.foldl_cons] at hc
    unfold buildComponentsStep at hc
    by_cases hcont : gs.contains p.1
    · rw [if_neg (by simp [hcont])] at hc
      by_cases hdec : (!(PenState.points s).isEmpty || (hov && ovf)) = true
      · rw [if_pos hdec] at hc
        rcases ih _ acc c hc with h | ⟨q, hq, hqc⟩
        · exact Or.inl h
        · exact Or.inr ⟨q, List.mem_cons_of_mem p hq, hqc⟩
      · rw [if_neg hdec] at hc
        rcases ih _ _ c hc with h | ⟨q, hq, hqc⟩
        · rcases List.mem_append.mp h with h' | h'
          · exact Or.inl h'
          · refine Or.inr ⟨p, List.mem_cons_self p l, hcont, ?_⟩
            simpa using h'
        · exact Or.inr ⟨q, List.mem_cons_of_mem p hq, hqc⟩
    · rw [if_pos (by simp [hcont])] at hc
      rcases ih s acc c hc with h | ⟨q, hq, hqc⟩
      · exact Or.inl h
      · exact Or.inr ⟨q, List.mem_cons_of_mem p hq, hqc⟩

/-- Every emitted component of `_buildComponents` is the emit-branch record
of some known pending component. -/
theorem mem_buildComponents (gs : GlyphSet) (hov : Bool) (flags : Nat) (s : PenState)
    (c : GlyphComponent) (hc : c ∈ (buildComponents gs hov flags s).2) :
    ∃ p ∈ s.components, gs.contains p.1 = true ∧ c = mkEmitComponent hov flags p.1 p.2 := by
  unfold buildComponents at hc
  rcases mem_buildLoop gs hov (rawOverflowing s.components) flags s.components s [] c hc with
    h | h
  · exact absurd h (List.not_mem_nil c)
  · exact h

/-! ## Claim theorems -/

/-- C1: a finalized glyph never mixes outline points and component records.
If any outline points have been accumulated when `_glyph` runs, the built
component list is empty (every pending component known to the glyph set is
decomposed — the final pen state is exactly the fold of `_decompose` over
the known pending components — and none appears in the output); and a glyph
whose built component list is non-empty carries that component list and is
marked composite with `numberOfContours = -1`. -/
theorem no_points_and_components_in_output (gs : GlyphSet) (hov : Bool) (flags : Nat)
    (s : PenState) :
    (s.points ≠ [] →
      (buildComponents gs hov flags s).2 = [] ∧
      (buildComponents gs hov flags s).1 =
        (s.components.filter fun p => gs.contains p.1).foldl
          (fun t p => decompose gs p.1 p.2 t) s ∧
      (penGlyph gs hov flags s).1.components = []) ∧
    ((penGlyph gs hov flags s).1.components ≠ [] →
      (penGlyph gs hov flags s).1.components = (buildComponents gs hov flags s).2 ∧
      (penGlyph gs hov flags s).1.numberOfContours = -1) := by
  constructor
  · intro hne
    have hb : buildComponents gs hov flags s =
        ((s.components.filter fun p => gs.contains p.1).foldl
          (fun t p => decompose gs p.1 p.2 t) s, []) := by
      refine buildLoop_decomposeAll gs hov (rawOverflowing s.components) flags
        (fun t => t.points ≠ []) (fun t ht => ?_)
        (fun t n tr ht => decompose_points_ne_nil gs n tr t ht) s.components s [] hne
      have hF : t.points.isEmpty = false := by
        cases hp : t.points
        · exact absurd hp ht
        · rfl
      simp [hF]
    refine ⟨by rw [hb], by rw [hb], ?_⟩
    unfold penGlyph
    rw [hb]
    simp
  · intro hne
    unfold penGlyph at hne ⊢
    by_cases hE : (buildComponents gs hov flags s).2.isEmpty
    · exact absurd (by simp [hE]) hne
    · simp [hE]

theorem no_points_and_components_in_output_witness :
    (penGlyph ⟨fun n => n == "A", fun _ _ => [[((0, 0), 1)]]⟩ true 4
      { initState with
        points := [(1, 2)]
        types := [1]
        components := [("A", ⟨1, 0, 0, 1, 0, 0⟩)] }).1.components = [] ∧
    (penGlyph ⟨fun n => n == "A", fun _ _ => [[((0, 0), 1)]]⟩ true 4
      { initState with components := [("A", ⟨1, 0, 0, 1, 3, 4⟩)] }).1.numberOfContours = -1 :=
  ⟨((no_points_and_components_in_output _ true 4 _).1 (by decide)).2.2,
   ((no_points_and_components_in_output _ true 4 _).2 (by decide)).2⟩

/-- C2: with overflow handling enabled, the overflow test is evaluated once
over the raw pre-quantization a,b,c,d values of all pending components; when
it holds, every pending component known to the glyph set is decomposed (the
final pen state is the fold of `_decompose` over the known pending
components) and the output component list is empty — even for components
whose own transform values are in range. -/
theorem glyph_wide_overflow_decomposes_all (gs : GlyphSet) (flags : Nat) (s : PenState)
    (hovf : rawOverflowing s.components = true) :
    (buildComponents gs true flags s).2 = [] ∧
    (buildComponents gs true flags s).1 =
      (s.components.filter fun p => gs.contains p.1).foldl
        (fun t p => decompose gs p.1 p.2 t) s ∧
    (penGlyph gs true flags s).1.components = [] := by
  have hb : buildComponents gs true flags s =
      ((s.components.filter fun p => gs.contains p.1).foldl
        (fun t p => decompose gs p.1 p.2 t) s, []) := by
    refine buildLoop_decomposeAll gs true (rawOverflowing s.components) flags
      (fun _ => True) (fun t _ => by simp [hovf]) (fun _ _ _ _ => trivial)
      s.components s [] trivial
  refine ⟨by rw [hb], by rw [hb], ?_⟩
  unfold penGlyph
  rw [hb]
  simp

theorem glyph_wide_overflow_decomposes_all_witness :
    (penGlyph ⟨fun n => n == "A" || n == "B", fun _ _ => [[((0, 0), 1), ((10, 0), 1)]]⟩ true 4
      { initState with components :=
          [("A", ⟨3, 0, 0, 1, 0, 0⟩), ("B", ⟨1, 0, 0, 1, 0, 0⟩)] }).1.components = [] :=
  (glyph_wide_overflow_decomposes_all _ 4 _ (by decide)).2.2

theorem almostTwo_iff (v : ℚ) : almostTwo v = true ↔ MAX_F2DOT14 < v ∧ v ≤ 2 := by
  simp [almostTwo]

theorem clamp_point (v : ℚ) :
    (if almostTwo v then MAX_F2DOT14 else v) =
      if MAX_F2DOT14 < v ∧ v ≤ 2 then MAX_F2DOT14 else v := by
  by_cases h : MAX_F2DOT14 < v ∧ v ≤ 2
  · rw [if_pos ((almostTwo_iff v).mpr h), if_pos h]
  · rw [if_neg (fun hb => h ((almostTwo_iff v).mp hb)), if_neg h]

/-- C3: with overflow handling enabled, every component that is emitted (not
decomposed) comes from the emit branch, and whenever its quantized a,b,c,d
values include some v with `MAX_F2DOT14 < v <= 2`, the stored transform
replaces exactly those values by `MAX_F2DOT14` and keeps the values already
`<= MAX_F2DOT14` unchanged. -/
theorem almost_two_values_clamped_on_emitted (gs : GlyphSet) (flags : Nat) (s : PenState)
    (c : GlyphComponent) (hc : c ∈ (buildComponents gs true flags s).2) :
    ∃ p ∈ s.components, c = mkEmitComponent true flags p.1 p.2 ∧
      ∀ qa qb qc qd : ℚ, quantize4 p.2 = (qa, qb, qc, qd) →
        ((MAX_F2DOT14 < qa ∧ qa ≤ 2) ∨ (MAX_F2DOT14 < qb ∧ qb ≤ 2) ∨
          (MAX_F2DOT14 < qc ∧ qc ≤ 2) ∨ (MAX_F2DOT14 < qd ∧ qd ≤ 2)) →
        c.transform = some
          (if MAX_F2DOT14 < qa ∧ qa ≤ 2 then MAX_F2DOT14 else qa,
           if MAX_F2DOT14 < qb ∧ qb ≤ 2 then MAX_F2DOT14 else qb,
           if MAX_F2DOT14 < qc ∧ qc ≤ 2 then MAX_F2DOT14 else qc,
           if MAX_F2DOT14 < qd ∧ qd ≤ 2 then MAX_F2DOT14 else qd) := by
  obtain ⟨p, hp, _, hce⟩ := mem_buildComponents gs true flags s c hc
  subst hce
  refine ⟨p, hp, rfl, ?_⟩
  intro qa qb qc qd hq hor
  have hgtone : (1 : ℚ) < MAX_F2DOT14 := by norm_num [MAX_F2DOT14]
  have hne : ((qa, qb, qc, qd) : ℚ × ℚ × ℚ × ℚ) ≠ (1, 0, 0, 1) := by
    intro heq
    obtain ⟨e1, e2, e3, e4⟩ : qa = 1 ∧ qb = 0 ∧ qc = 0 ∧ qd = 1 := by
      simpa [Prod.ext_iff] using heq
    subst e1; subst e2; subst e3; subst e4
    rcases hor with ⟨h, _⟩ | ⟨h, _⟩ | ⟨h, _⟩ | ⟨h, _⟩ <;> norm_num [MAX_F2DOT14] at h
  have hA : hasAlmostTwo (qa, qb, qc, qd) = true := by
    simp only [hasAlmostTwo, quadList, List.any_cons, List.any_nil, Bool.or_eq_true,
      almostTwo_iff]
    tauto
  simp only [mkEmitComponent, hq]
  rw [if_neg hne]
  rw [if_pos (by rw [hA, Bool.and_true])]
  simp only [clampQuad, clamp_point]

theorem almost_two_values_clamped_on_emitted_witness :
    (mkEmitComponent true 4 "A" ⟨2, 0, 0, 1, 5, 5⟩).transform = some (MAX_F2DOT14, 0, 0, 1) := by
  have hmem : mkEmitComponent true 4 "A" (⟨2, 0, 0, 1, 5, 5⟩ : Transform) ∈
      (buildComponents ⟨fun n => n == "A", fun _ _ => []⟩ true 4
        { initState with components := [("A", ⟨2, 0, 0, 1, 5, 5⟩)] }).2 := by
    have h : (buildComponents ⟨fun n => n == "A", fun _ _ => []⟩ true 4
        { initState with components := [("A", ⟨2, 0, 0, 1, 5, 5⟩)] }).2 =
        [mkEmitComponent true 4 "A" ⟨2, 0, 0, 1, 5, 5⟩] := rfl
    rw [h]
    exact List.mem_singleton.mpr rfl
  obtain ⟨p, hp, hce, himp⟩ :=
    almost_two_values_clamped_on_emitted ⟨fun n => n == "A", fun _ _ => []⟩ 4
      { initState with components := [("A", ⟨2, 0, 0, 1, 5, 5⟩)] }
      (mkEmitComponent true 4 "A" ⟨2, 0, 0, 1, 5, 5⟩) hmem
  rw [List.mem_singleton] at hp
  subst hp
  have h := himp 2 0 0 1
    (by norm_num [quantize4, floatToFixedToFloat, otRound, Prod.ext_iff])
    (Or.inl (by norm_num [MAX_F2DOT14]))
  rw [h]
  norm_num [MAX_F2DOT14]

/-- C7: every component that is emitted (not decomposed) omits the transform
field entirely when its quantized a,b,c,d equal exactly (1, 0, 0, 1), and
otherwise stores the quantized transform, clamped when overflow handling is
on and some quantized value lies in `(MAX_F2DOT14, 2]`. -/
theorem identity_transform_omitted (gs : GlyphSet) (hov : Bool) (flags : Nat) (s : PenState)
    (c : GlyphComponent) (hc : c ∈ (buildComponents gs hov flags s).2) :
    ∃ p ∈ s.components, c = mkEmitComponent hov flags p.1 p.2 ∧
      (quantize4 p.2 = (1, 0, 0, 1) → c.transform = none) ∧
      (quantize4 p.2 ≠ (1, 0, 0, 1) →
        c.transform = some (if hov && hasAlmostTwo (quantize4 p.2)
          then clampQuad (quantize4 p.2) else quantize4 p.2)) := by
  obtain ⟨p, hp, _, hce⟩ := mem_buildComponents gs hov flags s c hc
  subst hce
  refine ⟨p, hp, rfl, fun hq => by simp [mkEmitComponent, hq], fun hq => ?_⟩
  simp only [mkEmitComponent]
  rw [if_neg hq]
  by_cases h : (hov && hasAlmostTwo (quantize4 p.2)) = true
  · rw [if_pos h, if_pos h]
  · rw [if_neg h, if_neg h]

theorem identity_transform_omitted_witness :
    (mkEmitComponent true 4 "A" ⟨1, 0, 0, 1, 10, 20⟩).transform = none := by
  have hmem : mkEmitComponent true 4 "A" (⟨1, 0, 0, 1, 10, 20⟩ : Transform) ∈
      (buildComponents ⟨fun n => n == "A", fun _ _ => []⟩ true 4
        { initState with components := [("A", ⟨1, 0, 0, 1, 10, 20⟩)] }).2 := by
    have h : (buildComponents ⟨fun n => n == "A", fun _ _ => []⟩ true 4
        { initState with components := [("A", ⟨1, 0, 0, 1, 10, 20⟩)] }).2 =
        [mkEmitComponent true 4 "A" ⟨1, 0, 0, 1, 10, 20⟩] := rfl
    rw [h]
    exact List.mem_singleton.mpr rfl
  obtain ⟨p, hp, hce, hid, _⟩ :=
    identity_transform_omitted ⟨fun n => n == "A", fun _ _ => []⟩ true 4
      { initState with components := [("A", ⟨1, 0, 0, 1, 10, 20⟩)] }
      (mkEmitComponent true 4 "A" ⟨1, 0, 0, 1, 10, 20⟩) hmem
  rw [List.mem_singleton] at hp
  subst hp
  exact hid (by norm_num [quantize4, floatToFixedToFloat, otRound, Prod.ext_iff])

/-- C8: cubic drawing input always fails: `curveTo` raises for every
argument list, and `addPoint` raises for every segment role other than
none/off-curve, "line", or "qcurve". -/
theorem cubic_input_always_fails :
    (∀ (args : List Point) (s : PenState), curveTo args s = none) ∧
    (∀ (pt : Point) (ty : String) (s : PenState), ty ≠ "qcurve" → ty ≠ "line" →
      addPoint pt (some ty) s = none) := by
  refine ⟨fun args s => rfl, fun pt ty s h1 h2 => ?_⟩
  unfold addPoint
  rcases hcp : s.currentPath with _ | path
  · rfl
  · simp [h1, h2]

theorem cubic_input_always_fails_witness :
    curveTo [(1, 2), (3, 4), (5, 6)] initState = none ∧
    addPoint (0, 0) (some "curve") { initState with currentPath := some [] } = none :=
  ⟨cubic_input_always_fails.1 [(1, 2), (3, 4), (5, 6)] initState,
   cubic_input_always_fails.2 (0, 0) "curve" _ (by decide) (by decide)⟩

/-- The pen state returned next to the finished glyph is always the reset
state. -/
theorem penGlyph_snd (gs : GlyphSet) (hov : Bool) (flags : Nat) (s : PenState) :
    (penGlyph gs hov flags s).2 = initState := rfl

/-- C9: after a successful `glyph()` call on either adapter, the adapter's
accumulator state equals the empty initial state, so nothing carries over to
a subsequently built glyph. -/
theorem finalize_resets_state (gs : GlyphSet) (hov : Bool) (flags : Nat) (s : PenState)
    (g : Glyph) (s' : PenState) :
    (segGlyph gs hov flags s = some (g, s') → s' = initState) ∧
    (pointGlyph gs hov flags s = some (g, s') → s' = initState) := by
  constructor
  · intro h
    unfold segGlyph at h
    split at h
    · injection h with h1
      exact (congrArg Prod.snd h1).symm.trans (penGlyph_snd gs hov flags s)
    · exact Option.noConfusion h
  · intro h
    unfold pointGlyph at h
    split at h
    · injection h with h1
      exact (congrArg Prod.snd h1).symm.trans (penGlyph_snd gs hov flags s)
    · exact Option.noConfusion h

theorem finalize_resets_state_witness :
    ({ points := [], endPts := [], types := [], components := [], currentPath := none } :
      PenState) = initState :=
  (finalize_resets_state ⟨fun n => n == "A", fun _ _ => []⟩ true 4
    { initState with components := [("A", ⟨1, 0, 0, 1, 3, 4⟩)] }
    { coordinates := []
      endPtsOfContours := []
      flags := []
      components := [mkEmitComponent true 4 "A" ⟨1, 0, 0, 1, 3, 4⟩]
      numberOfContours := -1
      hasProgram := false }
    { points := [], endPts := [], types := [], components := [], currentPath := none }).1 rfl

theorem addPointRaw_points_len (s : PenState) (pt : Point) (f : Nat) :
    (addPointRaw s pt f).points.length = s.points.length + 1 := by
  simp [addPointRaw]

theorem addPointRaw_types_len (s : PenState) (pt : Point) (f : Nat) :
    (addPointRaw s pt f).types.length = s.types.length + 1 := by
  simp [addPointRaw]

theorem foldl_addPointRaw0_len (ps : List Point) : ∀ s : PenState,
    (ps.foldl (fun t p => addPointRaw t p 0) s).points.length = s.points.length + ps.length ∧
    (ps.foldl (fun t p => addPointRaw t p 0) s).types.length = s.types.length + ps.length := by
  induction ps with
  | nil => intro s; simp
  | cons p ps ih =>
    intro s
    rw [List.foldl_cons]
    obtain ⟨h1, h2⟩ := ih (addPointRaw s p 0)
    constructor
    · rw [h1]; simp [addPointRaw]; omega
    · rw [h2]; simp [addPointRaw]; omega

theorem closePath_len (s s' : PenState) (hop : closePath s = some s')
    (hlen : s.points.length = s.types.length) :
    s'.points.length = s'.types.length := by
  unfold closePath at hop
  by_cases hE : s.points.isEmpty
  · rw [if_pos hE] at hop
    exact Option.noConfusion hop
  · rw [if_neg hE] at hop
    repeat' split at hop
    all_goals first
      | exact Option.noConfusion hop
      | (injection hop with h
         subst h
         simp [popPoint, hlen])

/-- C10: every successful adapter operation preserves the invariant that
the accumulated point list and the accumulated flag list have equal length;
a raising operation returns no state at all (the model of raise-before-
mutation in the source). -/
theorem points_types_length_invariant (op : PenOp) (s s' : PenState)
    (hlen : s.points.length = s.types.length) (hop : applyOp op s = some s') :
    s'.points.length = s'.types.length := by
  cases op with
  | moveTo p =>
    simp only [applyOp] at hop
    unfold moveTo at hop
    split at hop
    · injection hop with h
      subst h
      simp [addPointRaw, hlen]
    · exact Option.noConfusion hop
  | lineTo p =>
    simp only [applyOp] at hop
    unfold lineTo at hop
    injection hop with h
    subst h
    simp [addPointRaw, hlen]
  | curveTo args =>
    simp only [applyOp] at hop
    exact Option.noConfusion hop
  | qCurveTo offCurves last =>
    simp only [applyOp] at hop
    unfold qCurveTo at hop
    obtain ⟨h1, h2⟩ := foldl_addPointRaw0_len offCurves s
    cases last with
    | some p =>
      injection hop with h
      subst h
      rw [addPointRaw_points_len, addPointRaw_types_len, h1, h2, hlen]
    | none =>
      injection hop with h
      subst h
      rw [h1, h2, hlen]
  | closePath =>
    simp only [applyOp] at hop
    exact closePath_len s s' hop hlen
  | segEndPath =>
    simp only [applyOp] at hop
    unfold segEndPath at hop
    exact closePath_len s s' hop hlen
  | beginPath =>
    simp only [applyOp] at hop
    unfold beginPath at hop
    split at hop
    · injection hop with h
      subst h
      simpa using hlen
    · exact Option.noConfusion hop
  | addPoint p ty =>
    simp only [applyOp] at hop
    unfold addPoint at hop
    repeat' split at hop
    all_goals first
      | exact Option.noConfusion hop
      | (injection hop with h
         subst h
         simp [hlen])
  | pointEndPath =>
    simp only [applyOp] at hop
    unfold pointEndPath at hop
    repeat' split at hop
    all_goals first
      | exact Option.noConfusion hop
      | (injection hop with h
         subst h
         simpa using hlen)
  | addComponent name t =>
    simp only [applyOp] at hop
    unfold addComponent at hop
    injection hop with h
    subst h
    simpa using hlen
  | segGlyph gs hov flags =>
    simp only [applyOp] at hop
    unfold segGlyph at hop
    split at hop
    · injection hop with h
      subst h
      rfl
    · exact Option.noConfusion hop
  | pointGlyph gs hov flags =>
    simp only [applyOp] at hop
    unfold pointGlyph at hop
    split at hop
    · injection hop with h
      subst h
      rfl
    · exact Option.noConfusion hop

theorem points_types_length_invariant_witness :
    (addPointRaw initState (3, 4) 1).points.length =
      (addPointRaw initState (3, 4) 1).types.length :=
  points_types_length_invariant (.lineTo (3, 4)) initState (addPointRaw initState (3, 4) 1)
    rfl rfl

/-- `closePath` right after appending a single point to a closed pen undoes
the append: the anchor is collapsed and no contour is recorded. -/
theorem closePath_addPoint_anchor (s : PenState) (p : Point) (hcl : isClosed s = true) :
    closePath (addPointRaw s p 1) = some s := by
  obtain ⟨pts, eps, tys, cs, cp⟩ := s
  rcases pts with _ | ⟨a, l⟩
  · simp [closePath, addPointRaw, popPoint]
  · unfold isClosed at hcl
    simp only [List.isEmpty_cons, Bool.false_or, Bool.and_eq_true, Bool.not_eq_true',
      decide_eq_true_eq] at hcl
    obtain ⟨hene, hlast⟩ := hcl
    simp [closePath, addPointRaw, popPoint, hlast]
    exact show ((a :: l) ++ [p]).dropLast = a :: l from List.dropLast_concat

/-- C4 (counterexample to the claim as stated): with the point adapter, a
sub-path with exactly one on-curve point that is immediately ended DOES
appear as a contour of the finalized glyph — the contour end list is `[0]`,
not empty. -/
theorem point_pen_anchor_recorded_cex :
    ((runOps [.beginPath, .addPoint (0, 0) (some "line"), .pointEndPath] initState).bind
      (pointGlyph ⟨fun _ => false, fun _ _ => []⟩ true 4)).map
      (fun r => r.1.endPtsOfContours) = some [0] := by decide

/-- C4 (amended): a sub-path of exactly one on-curve point that is
immediately ended collapses under the segment adapter — the pen returns to
its previous state and records no contour — while the point adapter records
it as a one-point contour. -/
theorem anchor_collapse_segment_only (s : PenState) (p : Point) (ty : String) :
    (isClosed s = true → runOps [.moveTo p, .segEndPath] s = some s) ∧
    (s.currentPath = none → (ty = "qcurve" ∨ ty = "line") →
      runOps [.beginPath, .addPoint p (some ty), .pointEndPath] s =
        some { s with
          points := s.points ++ [p]
          types := s.types ++ [1]
          endPts := s.endPts ++ [s.points.length]
          currentPath := none }) := by
  constructor
  · intro hcl
    have h1 : applyOp (.moveTo p) s = some (addPointRaw s p 1) := by
      simp [applyOp, moveTo, hcl]
    have h2 : applyOp .segEndPath (addPointRaw s p 1) = some s := by
      simp only [applyOp]
      unfold segEndPath
      exact closePath_addPoint_anchor s p hcl
    simp [runOps, h1, h2]
  · intro hcp hty
    rcases hty with h | h <;> subst h <;>
      simp [runOps, applyOp, beginPath, addPoint, pointEndPath, hcp]

theorem anchor_collapse_segment_only_witness :
    runOps [.moveTo (1, 1), .segEndPath] initState = some initState ∧
    runOps [.beginPath, .addPoint (1, 1) (some "line"), .pointEndPath] initState =
      some { initState with
        points := [(1, 1)]
        types := [1]
        endPts := [0]
        currentPath := none } :=
  ⟨(anchor_collapse_segment_only initState (1, 1) "line").1 rfl,
   (anchor_collapse_segment_only initState (1, 1) "line").2 rfl (Or.inr rfl)⟩

/-- C5 (counterexample to the claim as stated): a very first contour
consisting of a single point IS removed by the anchor-collapse branch:
`moveTo` then `closePath` on a fresh pen restores the empty initial state,
recording no contour. -/
theorem first_contour_anchor_removed_cex :
    runOps [.moveTo (0, 0), .closePath] initState = some initState := by decide

/-- C5 (amended): the anchor-collapse branch of `closePath` applies to
every one-point contour (`endPt == startPt`), including the very first
contour of the glyph: the just-appended point is removed and no contour
boundary is recorded. -/
theorem anchor_branch_all_one_point_contours (s : PenState)
    (hne : s.points ≠ [])
    (hone : s.points.length = (match s.endPts.getLast? with
      | some e => e + 1
      | none => 0) + 1) :
    closePath s = some (popPoint s) ∧ (popPoint s).endPts = s.endPts := by
  refine ⟨?_, rfl⟩
  unfold closePath
  rw [if_neg (by simp [hne])]
  rcases hl : s.endPts.getLast? with _ | e <;> rw [hl] at hone <;>
    simp [hone, hl]

theorem anchor_branch_all_one_point_contours_witness :
    closePath { initState with points := [(5, 5)], types := [1] } =
      some (popPoint { initState with points := [(5, 5)], types := [1] }) ∧
    (popPoint { initState with points := [(5, 5)], types := [1] }).endPts = ([] : List Nat) :=
  anchor_branch_all_one_point_contours _ (by decide) (by decide)

theorem runOps_lineTos_closePath (ps : List Point) : ∀ s : PenState,
    runOps (ps.map PenOp.lineTo ++ [PenOp.closePath]) s =
      closePath (ps.foldl (fun t q => addPointRaw t q 1) s) := by
  induction ps with
  | nil =>
    intro s
    cases h : closePath s <;> simp [runOps, applyOp, h]
  | cons p ps ih =>
    intro s
    simp only [List.map_cons, List.cons_append, runOps, applyOp, lineTo, List.foldl_cons]
    exact ih (addPointRaw s p 1)

theorem foldl_addPointRaw1_points (ps : List Point) : ∀ s : PenState,
    (ps.foldl (fun t q => addPointRaw t q 1) s).points = s.points ++ ps := by
  induction ps with
  | nil => intro s; simp
  | cons p ps ih =>
    intro s
    rw [List.foldl_cons, ih]
    simp [addPointRaw]

theorem foldl_addPointRaw1_endPts (ps : List Point) : ∀ s : PenState,
    (ps.foldl (fun t q => addPointRaw t q 1) s).endPts = s.endPts := by
  induction ps with
  | nil => intro s; rfl
  | cons p ps ih =>
    intro s
    rw [List.foldl_cons, ih]
    rfl

/-- C6: a contour drawn as move-to followed by at least one line-to and
close-path always closes successfully; the duplicate closing point is
dropped exactly when the last drawn point equals the contour's first point,
so the recorded contour holds drawn-count−1 points in that case and
drawn-count points otherwise (drawn count = 1 + number of line-tos). -/
theorem closed_polygon_point_count (s : PenState) (p : Point) (ps : List Point)
    (hclosed : isClosed s = true)
    (hwf : ∀ e ∈ s.endPts, e < s.points.length)
    (hne : ps ≠ []) :
    ∃ s', runOps (PenOp.moveTo p :: (ps.map PenOp.lineTo ++ [PenOp.closePath])) s = some s' ∧
      s'.points.length = s.points.length +
        (if ps.getLast? = some p then ps.length else ps.length + 1) ∧
      s'.endPts = s.endPts ++ [s.points.length +
        (if ps.getLast? = some p then ps.length else ps.length + 1) - 1] := by
  have hk : 0 < ps.length := List.length_pos.mpr hne
  have h1 : applyOp (.moveTo p) s = some (addPointRaw s p 1) := by
    simp [applyOp, moveTo, hclosed]
  have hrun : runOps (PenOp.moveTo p :: (ps.map PenOp.lineTo ++ [PenOp.closePath])) s =
      closePath (ps.foldl (fun t q => addPointRaw t q 1) (addPointRaw s p 1)) := by
    simp [runOps, h1, runOps_lineTos_closePath]
  rw [hrun]
  set F := ps.foldl (fun t q => addPointRaw t q 1) (addPointRaw s p 1) with hF
  have hFpts : F.points = s.points ++ (p :: ps) := by
    rw [hF, foldl_addPointRaw1_points]
    simp [addPointRaw]
  have hFeps : F.endPts = s.endPts := by
    rw [hF, foldl_addPointRaw1_endPts]
    rfl
  have hlen : F.points.length = s.points.length + (ps.length + 1) := by
    rw [hFpts]
    simp
  have hE' : ¬(F.points.isEmpty = true) := by
    rw [hFpts]
    simp
  have hC2' : ¬((decide (F.points.length - 1 = 0) || match F.endPts.getLast? with
      | some e => decide (F.points.length - 1 = e + 1)
      | none => false) = true) := by
    rw [hFeps, hlen]
    rcases hl : s.endPts.getLast? with _ | e <;> dsimp only
    · simp only [Bool.or_false, decide_eq_true_eq]
      omega
    · have he : e < s.points.length := hwf e (List.mem_of_mem_getLast? hl)
      simp only [Bool.or_eq_true, decide_eq_true_eq, not_or]
      omega
  have hstart : (match F.endPts.getLast? with | some e => e + 1 | none => 0) =
      s.points.length := by
    rw [hFeps]
    rcases hl : s.endPts.getLast? with _ | e <;> dsimp only
    · have heps : s.endPts = [] := by rwa [List.getLast?_eq_none_iff] at hl
      unfold isClosed at hclosed
      rw [heps] at hclosed
      simp only [List.isEmpty_nil, Bool.not_true, Bool.false_and, Bool.or_false,
        List.isEmpty_iff] at hclosed
      simp [hclosed]
    · have he : e < s.points.length := hwf e (List.mem_of_mem_getLast? hl)
      have hnp : s.points ≠ [] := by
        intro h0
        rw [h0] at he
        simp at he
      have hlp : 0 < s.points.length := List.length_pos.mpr hnp
      have hiE : s.points.isEmpty = false := by
        cases hp : s.points with
        | nil => exact absurd hp hnp
        | cons a l => rfl
      unfold isClosed at hclosed
      rw [hiE] at hclosed
      simp only [Bool.false_or, Bool.and_eq_true, Bool.not_eq_true',
        decide_eq_true_eq] at hclosed
      obtain ⟨_, hgl⟩ := hclosed
      rw [hl] at hgl
      injection hgl with hgl
      omega
  have hget1 : F.points.get? (match F.endPts.getLast? with
      | some e => e + 1
      | none => 0) = some p := by
    rw [hstart, hFpts, List.get?_eq_getElem?, List.getElem?_append_right (le_refl _),
      Nat.sub_self]
    simp
  have hget2 : F.points.get? (F.points.length - 1) = ps.getLast? := by
    have hlen2 : F.points.length - 1 = s.points.length + ps.length := by
      rw [hlen]
      omega
    obtain ⟨k', hk'⟩ : ∃ k', ps.length = k' + 1 := ⟨ps.length - 1, by omega⟩
    rw [hlen2, hFpts, List.get?_eq_getElem?, List.getElem?_append_right (by omega)]
    have h2 : s.points.length + ps.length - s.points.length = ps.length := by omega
    rw [h2, hk', List.getElem?_cons_succ, List.getLast?_eq_getElem?, hk']
    simp
  obtain ⟨q, hq⟩ : ∃ q, ps.getLast? = some q := by
    rcases hgl : ps.getLast? with _ | q
    · rw [List.getLast?_eq_none_iff] at hgl
      exact absurd hgl hne
    · exact ⟨q, rfl⟩
  rw [hq] at hget2
  unfold closePath
  rw [if_neg hE', if_neg hC2', hget1, hget2]
  dsimp only
  by_cases hpq : p = q
  · have hifs : (ps.getLast? = some p) := by rw [hq, hpq]
    rw [if_pos hpq]
    refine ⟨_, rfl, ?_, ?_⟩
    · rw [if_pos hifs]
      dsimp only
      simp only [popPoint, List.length_dropLast, hlen]
      omega
    · rw [if_pos hifs]
      dsimp only
      rw [hFeps]
      have heq : F.points.length - 1 - 1 = s.points.length + ps.length - 1 := by
        rw [hlen]
        omega
      rw [heq]
  · have hifs : ¬(ps.getLast? = some p) := by
      rw [hq]
      intro hcon
      injection hcon with hcon
      exact hpq hcon.symm
    rw [if_neg hpq]
    refine ⟨_, rfl, ?_, ?_⟩
    · rw [if_neg hifs]
      dsimp only
      rw [hlen]
    · rw [if_neg hifs]
      dsimp only
      rw [hFeps]
      have heq : F.points.length - 1 = s.points.length + (ps.length + 1) - 1 := by
        rw [hlen]
      rw [heq]

theorem closed_polygon_point_count_witness :
    ∃ s', runOps (PenOp.moveTo (0, 0) :: ([(0, 100), (100, 100), (100, 0), (0, 0)].map
        PenOp.lineTo ++ [PenOp.closePath])) initState = some s' ∧
      s'.points.length = initState.points.length +
        (if [((0 : ℚ), (100 : ℚ)), (100, 100), (100, 0), (0, 0)].getLast? = some (0, 0)
          then 4 else 5) ∧
      s'.endPts = initState.endPts ++ [initState.points.length +
        (if [((0 : ℚ), (100 : ℚ)), (100, 100), (100, 0), (0, 0)].getLast? = some (0, 0)
          then 4 else 5) - 1] :=
  closed_polygon_point_count initState (0, 0) [(0, 100), (100, 100), (100, 0), (0, 0)]
    rfl (by simp [initState]) (by simp)
